import Mathlib

/-!
Verification of the reactive Settings Engine specified for this repository's
visualization plot objects (parameter store, dependency graph, recompute
scheduler).  The repository snapshot ships only the documentation of this
component (notebooks describing `update_settings` behaviour), not its Python
implementation, so the executable model below is built from the specification
text and checked against the properties the specification states.
-/

namespace Reactive

/-- Modelled from the spec: the tagged value type for parameter and artifact
values ("sum type over the finite set of supported parameter value kinds:
number, string, enum, list"); the Python implementation of the settings
values is not in the snapshot. `vnone` models Python `None`, `vrange` a
two-element numeric range such as `Erange=[-10,10]`. -/
inductive SVal where
  | vnone : SVal
  | vint : Int → SVal
  | vstr : String → SVal
  | vrange : Int → Int → SVal
  | vlist : List Int → SVal
deriving DecidableEq, Repr

/-- Numeric projection used by scenario producers. -/
def SVal.toInt : SVal → Int
  | .vint n => n
  | _ => 0

/-- The list of integers from `lo` to `hi` inclusive. -/
def rangeInts (lo hi : Int) : List Int :=
  (List.range (hi - lo + 1).toNat).map (fun i => lo + (i : Int))

/-- Modelled from the spec: the error taxonomy of §7 (`UnknownParameter`,
`InvalidValue`, `CyclicDependency`, `ArtifactComputationError`), plus two
constructors the specification leaves open: reading an undeclared artifact
and re-declaring an artifact name. -/
inductive EngineError where
  | UnknownParameter : String → EngineError
  | InvalidValue : String → EngineError
  | CyclicDependency : String → EngineError
  | ArtifactComputationError : String → String → EngineError
  | UnknownArtifact : String → EngineError
  | DuplicateArtifact : String → EngineError
deriving DecidableEq, Repr

/-- Modelled from the spec: a Parameter of the Parameter Store — name, current
value, default value, validator predicate and help text. -/
structure ParamDecl where
  name : String
  value : SVal
  defaultValue : SVal
  validator : SVal → Bool
  help : String

/-- Modelled from the spec: an Artifact — its declared parameter reads, the
artifacts it derives from, its producer function, a cached value and a
generation counter.  The producer receives resolved parameter values and
resolved upstream artifact values and may raise (modelled by `Except`). -/
structure Art where
  name : String
  reads : List String
  derivesFrom : List String
  producer : List SVal → List SVal → Except String SVal
  cached : Option SVal
  generation : Nat

/-- Modelled from the spec: the Settings Engine state — Parameter Store,
Artifact list in declaration order, and a trace of producer invocations
(the "producer call counter" of §8, kept as an ordered log so that the
order of recomputations is observable). -/
structure Engine where
  params : List ParamDecl
  artifacts : List Art
  log : List String

/-! ### Parameter Store -/

/-- Lookup of a parameter record by name (first match). -/
def findParam (e : Engine) (n : String) : Option ParamDecl :=
  e.params.find? (fun p => decide (p.name = n))

/-- Modelled from the spec: `get(name) -> value`, failing with
`UnknownParameter` for an unregistered name. -/
def get (e : Engine) (n : String) : Except EngineError SVal :=
  match findParam e n with
  | some p => .ok p.value
  | none => .error (.UnknownParameter n)

/-- Modelled from the spec: `set(name, value)` — validates via the parameter's
validator (failing with `InvalidValue`), is a no-op when the value equals the
current value, and otherwise stores the value and reports the parameter as
changed for the current batch. -/
def setFun (n : String) (v : SVal) (q : ParamDecl) : ParamDecl :=
  if q.name = n then { q with value := v } else q

theorem setFun_name (n : String) (v : SVal) (q : ParamDecl) :
    (setFun n v q).name = q.name := by
  unfold setFun; split <;> rfl

def set (e : Engine) (n : String) (v : SVal) : Except EngineError (Engine × Bool) :=
  match findParam e n with
  | none => .error (.UnknownParameter n)
  | some p =>
    if p.validator v then
      if v = p.value then .ok (e, false)
      else .ok ({ e with params := e.params.map (setFun n v) }, true)
    else .error (.InvalidValue n)

/-- Modelled from the spec: the batching phase of `update(mapping)` — applies
the `set` calls in order, collecting the names recorded as changed. -/
def setAll : Engine → List (String × SVal) → Except EngineError (Engine × List String)
  | e, [] => .ok (e, [])
  | e, (n, v) :: rest =>
    match set e n v with
    | .error err => .error err
    | .ok (e1, changed) =>
      match setAll e1 rest with
      | .error err => .error err
      | .ok (e2, ns) => .ok (e2, if changed then n :: ns else ns)

/-! ### Dependency graph -/

/-- Names of the declared artifacts, in declaration order. -/
def artNames (arts : List Art) : List String :=
  arts.map (fun a => a.name)

/-- Lookup of an artifact record by name (first match). -/
def findArt' (arts : List Art) (n : String) : Option Art :=
  arts.find? (fun a => decide (a.name = n))

/-- Lookup of an artifact record of an engine by name. -/
def findArt (e : Engine) (n : String) : Option Art :=
  findArt' e.artifacts n

/-- The artifacts an artifact directly derives from (empty for undeclared
names). -/
def derivesOf (arts : List Art) (x : String) : List String :=
  match findArt' arts x with
  | some a => a.derivesFrom
  | none => []

/-- The parameter names an artifact directly reads (empty for undeclared
names). -/
def readsOf (arts : List Art) (x : String) : List String :=
  match findArt' arts x with
  | some a => a.reads
  | none => []

/-- Dependency edge: `x` directly derives from `y`. -/
def edge (arts : List Art) (x y : String) : Prop :=
  y ∈ derivesOf arts x

instance (arts : List Art) (x y : String) : Decidable (edge arts x y) := by
  unfold edge; infer_instance

/-- Reachability `Reaches arts x y`: artifact `x` transitively derives from `y`
(a non-empty path of dependency edges from `x` to `y`). -/
inductive Reaches (arts : List Art) : String → String → Prop where
  | single {x y : String} : edge arts x y → Reaches arts x y
  | head {x y z : String} : edge arts x y → Reaches arts y z → Reaches arts x z

theorem Reaches.trans {arts : List Art} {x y z : String}
    (h1 : Reaches arts x y) (h2 : Reaches arts y z) : Reaches arts x z := by
  induction h1 with
  | single e => exact Reaches.head e h2
  | head e _ ih => exact Reaches.head e (ih h2)

theorem Reaches.tail {arts : List Art} {x y z : String}
    (h : Reaches arts x y) (e : edge arts y z) : Reaches arts x z :=
  Reaches.trans h (Reaches.single e)

/-- The dependency graph has no cycle. -/
def Acyclic (arts : List Art) : Prop :=
  ∀ x : String, ¬ Reaches arts x x

/-! ### Saturation of monotone step functions on finite string sets

The spec's depth-first searches (cycle detection in `declare`, transitive
closure in `affected_by`) are modelled as bounded saturation: iterating an
inflationary step function enough times to reach its fixpoint. -/

theorem subset_iterate (F : Finset String → Finset String)
    (hinf : ∀ R, R ⊆ F R) (S : Finset String) : ∀ n, S ⊆ F^[n] S := by
  intro n
  induction n with
  | zero => simp
  | succ k ih =>
    rw [Function.iterate_succ_apply']
    exact ih.trans (hinf _)

theorem iterate_subset_union (F : Finset String → Finset String) (U : Finset String)
    (hbnd : ∀ R, F R ⊆ R ∪ U) (S : Finset String) : ∀ n, F^[n] S ⊆ S ∪ U := by
  intro n
  induction n with
  | zero => simp [Finset.subset_union_left]
  | succ k ih =>
    rw [Function.iterate_succ_apply']
    refine (hbnd _).trans ?_
    exact Finset.union_subset (ih.trans (by simp)) (by simp)

theorem iterate_progress (F : Finset String → Finset String)
    (hinf : ∀ R, R ⊆ F R) (S : Finset String) :
    ∀ k, (∃ j ≤ k, F (F^[j] S) = F^[j] S) ∨ S.card + k ≤ (F^[k] S).card := by
  intro k
  induction k with
  | zero => exact Or.inr (by simp)
  | succ k ih =>
    rcases ih with ⟨j, hj, hfix⟩ | hcard
    · exact Or.inl ⟨j, Nat.le_succ_of_le hj, hfix⟩
    · by_cases heq : F (F^[k] S) = F^[k] S
      · exact Or.inl ⟨k, Nat.le_succ k, heq⟩
      · refine Or.inr ?_
        rw [Function.iterate_succ_apply']
        have hss : F^[k] S ⊂ F (F^[k] S) :=
          (Finset.ssubset_iff_subset_ne).mpr ⟨hinf _, fun h => heq h.symm⟩
        have := Finset.card_lt_card hss
        omega

theorem iterate_fix_of_le (F : Finset String → Finset String) (U : Finset String)
    (hinf : ∀ R, R ⊆ F R) (hbnd : ∀ R, F R ⊆ R ∪ U) (S : Finset String)
    (K : Nat) (hK : (S ∪ U).card + 1 ≤ K) : F (F^[K] S) = F^[K] S := by
  rcases iterate_progress F hinf S K with ⟨j, hj, hfix⟩ | hcard
  · obtain ⟨m, rfl⟩ : ∃ m, K = m + j := ⟨K - j, by omega⟩
    rw [Function.iterate_add_apply, Function.iterate_fixed hfix]
    exact hfix
  · exfalso
    have h1 : (F^[K] S).card ≤ (S ∪ U).card :=
      Finset.card_le_card (iterate_subset_union F U hbnd S K)
    omega

theorem iterate_sound (F : Finset String → Finset String) (S : Finset String)
    (P : String → Prop) (hS : ∀ x ∈ S, P x)
    (hstep : ∀ R, (∀ x ∈ R, P x) → ∀ x ∈ F R, P x) :
    ∀ n, ∀ x ∈ F^[n] S, P x := by
  intro n
  induction n with
  | zero => simpa using hS
  | succ k ih =>
    rw [Function.iterate_succ_apply']
    exact hstep _ ih

/-! ### Predecessor closure: what transitively derives from a given set -/

/-- One saturation step: add every declared artifact one of whose direct
dependencies is already in the set. -/
def satStepPred (arts : List Art) (R : Finset String) : Finset String :=
  R ∪ ((artNames arts).filter
    (fun x => (derivesOf arts x).any (fun d => decide (d ∈ R)))).toFinset

theorem satStepPred_inflationary (arts : List Art) (R : Finset String) :
    R ⊆ satStepPred arts R :=
  Finset.subset_union_left

theorem satStepPred_bounded (arts : List Art) (R : Finset String) :
    satStepPred arts R ⊆ R ∪ (artNames arts).toFinset := by
  unfold satStepPred
  refine Finset.union_subset (by simp) ?_
  intro x hx
  rw [List.mem_toFinset, List.mem_filter] at hx
  exact Finset.mem_union_right _ (List.mem_toFinset.mpr hx.1)

/-- Iteration count certainly reaching the fixpoint of `satStepPred` from a
seed of at most one extra element. -/
def predFixCount (arts : List Art) : Nat := (artNames arts).length + 2

theorem satStepPred_fix_at (arts : List Art) (S : Finset String)
    (hS : (S ∪ (artNames arts).toFinset).card + 1 ≤ predFixCount arts) :
    satStepPred arts ((satStepPred arts)^[predFixCount arts] S) =
      (satStepPred arts)^[predFixCount arts] S :=
  iterate_fix_of_le (satStepPred arts) (artNames arts).toFinset
    (satStepPred_inflationary arts) (satStepPred_bounded arts) S _ hS

theorem edge_mem_artNames {arts : List Art} {x d : String} (h : edge arts x d) :
    x ∈ artNames arts := by
  unfold edge derivesOf at h
  cases hf : findArt' arts x with
  | none => rw [hf] at h; simp at h
  | some a =>
    have hmem := List.mem_of_find?_eq_some hf
    have hp := List.find?_some hf
    have : a.name = x := by simpa using hp
    exact this ▸ List.mem_map.mpr ⟨a, hmem, rfl⟩

theorem satStepPred_sound (arts : List Art) (P : String → Prop)
    (hedge : ∀ x d, edge arts x d → P d → P x) (R : Finset String)
    (hR : ∀ x ∈ R, P x) : ∀ x ∈ satStepPred arts R, P x := by
  intro x hx
  rcases Finset.mem_union.mp hx with h | h
  · exact hR x h
  · rw [List.mem_toFinset, List.mem_filter] at h
    rcases List.any_eq_true.mp h.2 with ⟨d, hd, hdR⟩
    exact hedge x d hd (hR d (of_decide_eq_true hdR))

theorem satStepPred_closed (arts : List Art) (R : Finset String)
    (hfix : satStepPred arts R = R) :
    ∀ x d, edge arts x d → d ∈ R → x ∈ R := by
  intro x d he hd
  rw [← hfix]
  refine Finset.mem_union_right _ ?_
  rw [List.mem_toFinset, List.mem_filter]
  exact ⟨edge_mem_artNames he, List.any_eq_true.mpr ⟨d, he, decide_eq_true hd⟩⟩

theorem reaches_mem_of_pred_fix (arts : List Art) (R : Finset String)
    (hfix : satStepPred arts R = R) :
    ∀ x y, Reaches arts x y → y ∈ R → x ∈ R := by
  intro x y h
  induction h with
  | single he => exact fun hy => satStepPred_closed arts R hfix _ _ he hy
  | head he _ ih => exact fun hy => satStepPred_closed arts R hfix _ _ he (ih hy)

/-- The set of artifacts transitively deriving from `t` (including `t`),
computed by saturation; this is the spec's depth-first search over existing
edges used by `declare` for cycle detection. -/
def reachSet (arts : List Art) (t : String) : Finset String :=
  (satStepPred arts)^[predFixCount arts] {t}

theorem reachSet_fix (arts : List Art) (t : String) :
    satStepPred arts (reachSet arts t) = reachSet arts t := by
  refine satStepPred_fix_at arts {t} ?_
  have h1 := Finset.card_union_le ({t} : Finset String) (artNames arts).toFinset
  have h2 := (artNames arts).toFinset_card_le
  simp only [Finset.card_singleton] at h1
  unfold predFixCount
  omega

theorem self_mem_reachSet (arts : List Art) (t : String) : t ∈ reachSet arts t :=
  subset_iterate _ (satStepPred_inflationary arts) _ _ (Finset.mem_singleton_self t)

theorem mem_reachSet_of_reaches {arts : List Art} {d t : String}
    (h : Reaches arts d t) : d ∈ reachSet arts t :=
  reaches_mem_of_pred_fix arts _ (reachSet_fix arts t) d t h (self_mem_reachSet arts t)

theorem reachSet_sound {arts : List Art} {d t : String}
    (h : d ∈ reachSet arts t) : d = t ∨ Reaches arts d t := by
  refine iterate_sound (satStepPred arts) {t} (fun x => x = t ∨ Reaches arts x t)
    ?_ ?_ _ d h
  · intro x hx; exact Or.inl (Finset.mem_singleton.mp hx)
  · intro R hR
    refine satStepPred_sound arts _ ?_ R hR
    intro x d' he hd'
    rcases hd' with rfl | hr
    · exact Or.inr (Reaches.single he)
    · exact Or.inr (Reaches.head he hr)

theorem mem_reachSet_iff {arts : List Art} {d t : String} :
    d ∈ reachSet arts t ↔ d = t ∨ Reaches arts d t := by
  constructor
  · exact reachSet_sound
  · rintro (rfl | h)
    · exact self_mem_reachSet arts d
    · exact mem_reachSet_of_reaches h

/-! ### Affected sets -/

/-- An artifact whose declared reads intersect the changed parameter names. -/
def DirectlyAffected (arts : List Art) (changed : List String) (x : String) : Prop :=
  ∃ p ∈ readsOf arts x, p ∈ changed

/-- The specification's characterisation of the artifacts `affected_by`
returns: reads intersect the changed names, or transitively derives from
such an artifact. -/
def AffectedSpec (arts : List Art) (changed : List String) (x : String) : Prop :=
  DirectlyAffected arts changed x ∨
    ∃ y, Reaches arts x y ∧ DirectlyAffected arts changed y

/-- The artifacts whose reads directly intersect the changed names. -/
def directSet (arts : List Art) (changed : List String) : Finset String :=
  ((artNames arts).filter
    (fun x => (readsOf arts x).any (fun p => decide (p ∈ changed)))).toFinset

/-- The full affected set: directly affected artifacts closed under
"derives from an affected artifact". -/
def affectedSet (arts : List Art) (changed : List String) : Finset String :=
  (satStepPred arts)^[predFixCount arts] (directSet arts changed)

theorem directlyAffected_mem_artNames {arts : List Art} {changed : List String}
    {x : String} (h : DirectlyAffected arts changed x) : x ∈ artNames arts := by
  obtain ⟨p, hp, _⟩ := h
  unfold readsOf at hp
  cases hf : findArt' arts x with
  | none => rw [hf] at hp; simp at hp
  | some a =>
    have hmem := List.mem_of_find?_eq_some hf
    have : a.name = x := by simpa using List.find?_some hf
    exact this ▸ List.mem_map.mpr ⟨a, hmem, rfl⟩

theorem mem_directSet_iff {arts : List Art} {changed : List String} {x : String} :
    x ∈ directSet arts changed ↔ DirectlyAffected arts changed x := by
  unfold directSet
  rw [List.mem_toFinset, List.mem_filter]
  constructor
  · rintro ⟨-, h⟩
    rcases List.any_eq_true.mp h with ⟨p, hp, hpc⟩
    exact ⟨p, hp, of_decide_eq_true hpc⟩
  · rintro h
    refine ⟨directlyAffected_mem_artNames h, ?_⟩
    obtain ⟨p, hp, hpc⟩ := h
    exact List.any_eq_true.mpr ⟨p, hp, decide_eq_true hpc⟩

theorem directSet_subset_artNames (arts : List Art) (changed : List String) :
    directSet arts changed ⊆ (artNames arts).toFinset := by
  intro x hx
  unfold directSet at hx
  rw [List.mem_toFinset, List.mem_filter] at hx
  exact List.mem_toFinset.mpr hx.1

theorem affectedSet_fix (arts : List Art) (changed : List String) :
    satStepPred arts (affectedSet arts changed) = affectedSet arts changed := by
  refine satStepPred_fix_at arts _ ?_
  have h1 : directSet arts changed ∪ (artNames arts).toFinset =
      (artNames arts).toFinset :=
    Finset.union_eq_right.mpr (directSet_subset_artNames arts changed)
  rw [h1]
  have h2 := (artNames arts).toFinset_card_le
  unfold predFixCount
  omega

theorem affectedSet_subset_artNames (arts : List Art) (changed : List String) :
    affectedSet arts changed ⊆ (artNames arts).toFinset := by
  refine (iterate_subset_union (satStepPred arts) (artNames arts).toFinset
    (satStepPred_bounded arts) _ _).trans ?_
  exact Finset.union_subset (directSet_subset_artNames arts changed) subset_rfl

theorem affectedSet_sound {arts : List Art} {changed : List String} {x : String}
    (h : x ∈ affectedSet arts changed) : AffectedSpec arts changed x := by
  refine iterate_sound (satStepPred arts) (directSet arts changed)
    (AffectedSpec arts changed) ?_ ?_ _ x h
  · intro y hy; exact Or.inl (mem_directSet_iff.mp hy)
  · intro R hR
    refine satStepPred_sound arts _ ?_ R hR
    intro y d he hd
    rcases hd with hd | ⟨z, hz, hdz⟩
    · exact Or.inr ⟨d, Reaches.single he, hd⟩
    · exact Or.inr ⟨z, Reaches.head he hz, hdz⟩

theorem affectedSet_complete {arts : List Art} {changed : List String} {x : String}
    (h : AffectedSpec arts changed x) : x ∈ affectedSet arts changed := by
  have hseed : directSet arts changed ⊆ affectedSet arts changed :=
    subset_iterate _ (satStepPred_inflationary arts) _ _
  rcases h with h | ⟨y, hr, hy⟩
  · exact hseed (mem_directSet_iff.mpr h)
  · exact reaches_mem_of_pred_fix arts _ (affectedSet_fix arts changed) x y hr
      (hseed (mem_directSet_iff.mpr hy))

theorem mem_affectedSet_iff {arts : List Art} {changed : List String} {x : String} :
    x ∈ affectedSet arts changed ↔ AffectedSpec arts changed x :=
  ⟨affectedSet_sound, affectedSet_complete⟩

/-- Modelled from the spec: `affected_by(changed_param_names)` — the ordered
sequence of affected artifact names; the Python implementation is not in the
snapshot.  The affected set is the saturation closure above; the sequence is
emitted in declaration order (the spec's deterministic tie-break). -/
def affected_by (arts : List Art) (changed : List String) : List String :=
  (artNames arts).filter (fun x => decide (x ∈ affectedSet arts changed))

theorem mem_affected_by_iff {arts : List Art} {changed : List String} {x : String} :
    x ∈ affected_by arts changed ↔
      x ∈ artNames arts ∧ AffectedSpec arts changed x := by
  unfold affected_by
  rw [List.mem_filter]
  constructor
  · rintro ⟨h1, h2⟩; exact ⟨h1, mem_affectedSet_iff.mp (of_decide_eq_true h2)⟩
  · rintro ⟨h1, h2⟩; exact ⟨h1, decide_eq_true (mem_affectedSet_iff.mpr h2)⟩

/-! ### Successor closure: an artifact's transitive dependencies -/

/-- Every node name the dependency graph mentions. -/
def allNodes (arts : List Art) : List String :=
  artNames arts ++ (arts.map (fun a => a.derivesFrom)).flatten

/-- One saturation step in the forward direction: add every direct dependency
of an artifact already in the set. -/
def satStepSucc (arts : List Art) (R : Finset String) : Finset String :=
  R ∪ ((allNodes arts).filter
    (fun y => (artNames arts).any
      (fun x => decide (x ∈ R) && decide (y ∈ derivesOf arts x)))).toFinset

theorem satStepSucc_inflationary (arts : List Art) (R : Finset String) :
    R ⊆ satStepSucc arts R :=
  Finset.subset_union_left

theorem satStepSucc_bounded (arts : List Art) (R : Finset String) :
    satStepSucc arts R ⊆ R ∪ (allNodes arts).toFinset := by
  unfold satStepSucc
  refine Finset.union_subset (by simp) ?_
  intro x hx
  rw [List.mem_toFinset, List.mem_filter] at hx
  exact Finset.mem_union_right _ (List.mem_toFinset.mpr hx.1)

/-- Iteration count reaching the fixpoint of `satStepSucc`. -/
def succFixCount (arts : List Art) : Nat := (allNodes arts).length + 2

/-- The artifacts a given artifact transitively derives from (including
itself): the transitive closure of its dependencies. -/
def succSet (arts : List Art) (s : String) : Finset String :=
  (satStepSucc arts)^[succFixCount arts] {s}

theorem succSet_fix (arts : List Art) (s : String) :
    satStepSucc arts (succSet arts s) = succSet arts s := by
  refine iterate_fix_of_le (satStepSucc arts) (allNodes arts).toFinset
    (satStepSucc_inflationary arts) (satStepSucc_bounded arts) {s} _ ?_
  have h1 := Finset.card_union_le ({s} : Finset String) (allNodes arts).toFinset
  have h2 := (allNodes arts).toFinset_card_le
  simp only [Finset.card_singleton] at h1
  unfold succFixCount
  omega

theorem self_mem_succSet (arts : List Art) (s : String) : s ∈ succSet arts s :=
  subset_iterate _ (satStepSucc_inflationary arts) _ _ (Finset.mem_singleton_self s)

theorem mem_allNodes_of_edge {arts : List Art} {x y : String} (h : edge arts x y) :
    y ∈ allNodes arts := by
  unfold edge derivesOf at h
  cases hf : findArt' arts x with
  | none => rw [hf] at h; simp at h
  | some a =>
    rw [hf] at h
    have hmem := List.mem_of_find?_eq_some hf
    refine List.mem_append_right _ ?_
    exact List.mem_flatten.mpr ⟨a.derivesFrom, List.mem_map.mpr ⟨a, hmem, rfl⟩, h⟩

theorem satStepSucc_closed (arts : List Art) (R : Finset String)
    (hfix : satStepSucc arts R = R) :
    ∀ x y, x ∈ R → edge arts x y → y ∈ R := by
  intro x y hx he
  rw [← hfix]
  refine Finset.mem_union_right _ ?_
  rw [List.mem_toFinset, List.mem_filter]
  refine ⟨mem_allNodes_of_edge he, List.any_eq_true.mpr ⟨x, edge_mem_artNames he, ?_⟩⟩
  rw [Bool.and_eq_true, decide_eq_true_eq, decide_eq_true_eq]
  exact ⟨hx, he⟩

theorem reaches_mem_of_succ_fix (arts : List Art) (R : Finset String)
    (hfix : satStepSucc arts R = R) :
    ∀ x y, Reaches arts x y → x ∈ R → y ∈ R := by
  intro x y h
  induction h with
  | single he => exact fun hx => satStepSucc_closed arts R hfix _ _ hx he
  | head he _ ih => exact fun hx => ih (satStepSucc_closed arts R hfix _ _ hx he)

theorem mem_succSet_of_reaches {arts : List Art} {s y : String}
    (h : Reaches arts s y) : y ∈ succSet arts s :=
  reaches_mem_of_succ_fix arts _ (succSet_fix arts s) s y h (self_mem_succSet arts s)

/-- The transitive closure of an artifact's parameter dependencies: every
parameter read by the artifact or by any artifact it transitively derives
from. -/
def closureParams (arts : List Art) (s : String) : Finset String :=
  (succSet arts s).biUnion (fun y => (readsOf arts y).toFinset)

theorem not_affected_of_disjoint {arts : List Art} {changed : List String}
    {A : String} (h : ∀ p ∈ changed, p ∉ closureParams arts A) :
    A ∉ affectedSet arts changed := by
  intro hA
  rcases affectedSet_sound hA with ⟨p, hp, hpc⟩ | ⟨y, hr, ⟨p, hp, hpc⟩⟩
  · exact h p hpc (Finset.mem_biUnion.mpr
      ⟨A, self_mem_succSet arts A, List.mem_toFinset.mpr hp⟩)
  · exact h p hpc (Finset.mem_biUnion.mpr
      ⟨y, mem_succSet_of_reaches hr, List.mem_toFinset.mpr hp⟩)

/-! ### Declaration and cycle detection -/

/-- Modelled from the spec: `declare(artifact_name, reads, derives_from)` —
registers one artifact's inputs, failing with `CyclicDependency` when adding
the edges would create a cycle (search over existing edges before insertion)
and with `UnknownParameter` when a read parameter is not in the store; the
Python implementation is not in the snapshot.  Re-declaring a name is
rejected (a choice the spec leaves open). -/
def declare (e : Engine) (name : String) (reads derives : List String)
    (producer : List SVal → List SVal → Except String SVal) :
    Except EngineError Engine :=
  if e.artifacts.any (fun a => decide (a.name = name)) then
    .error (.DuplicateArtifact name)
  else
    match reads.find? (fun r => ! e.params.any (fun p => decide (p.name = r))) with
    | some r => .error (.UnknownParameter r)
    | none =>
      if derives.any (fun d => decide (d ∈ reachSet e.artifacts name)) then
        .error (.CyclicDependency name)
      else
        .ok { e with artifacts :=
          e.artifacts ++ [⟨name, reads, derives, producer, none, 0⟩] }

theorem findArt'_append_fresh (arts : List Art) (new : Art)
    (hfresh : new.name ∉ artNames arts) (x : String) :
    findArt' (arts ++ [new]) x =
      if x = new.name then some new else findArt' arts x := by
  unfold findArt'
  rw [List.find?_append]
  by_cases hx : x = new.name
  · have h1 : arts.find? (fun a => decide (a.name = x)) = none := by
      rw [List.find?_eq_none]
      intro a ha
      simp only [decide_eq_true_eq]
      intro hax
      apply hfresh
      rw [← hx, ← hax]
      exact List.mem_map.mpr ⟨a, ha, rfl⟩
    rw [h1, if_pos hx]
    simp [List.find?, hx.symm]
  · rw [if_neg hx]
    cases h1 : arts.find? (fun a => decide (a.name = x)) with
    | some a => rfl
    | none =>
      simp only [Option.none_or]
      rw [List.find?_eq_none]
      intro a ha
      rw [List.mem_singleton] at ha
      subst ha
      simp only [decide_eq_true_eq]
      exact fun h => hx h.symm

theorem derivesOf_append_fresh (arts : List Art) (new : Art)
    (hfresh : new.name ∉ artNames arts) (x : String) :
    derivesOf (arts ++ [new]) x =
      if x = new.name then new.derivesFrom else derivesOf arts x := by
  unfold derivesOf
  rw [findArt'_append_fresh arts new hfresh]
  by_cases hx : x = new.name <;> simp [hx]

theorem edge_append_fresh_of_ne {arts : List Art} {new : Art}
    (hfresh : new.name ∉ artNames arts) {x y : String} (hx : x ≠ new.name)
    (h : edge (arts ++ [new]) x y) : edge arts x y := by
  unfold edge at h ⊢
  rwa [derivesOf_append_fresh arts new hfresh, if_neg hx] at h

theorem edge_append_fresh_self {arts : List Art} {new : Art}
    (hfresh : new.name ∉ artNames arts) {y : String}
    (h : edge (arts ++ [new]) new.name y) : y ∈ new.derivesFrom := by
  unfold edge at h
  rwa [derivesOf_append_fresh arts new hfresh, if_pos rfl] at h

/-- Path decomposition in the extended graph: a path either already lives in
the old graph, or it passes through the freshly declared artifact. -/
theorem reaches_append_fresh {arts : List Art} {new : Art}
    (hfresh : new.name ∉ artNames arts) :
    ∀ x y, Reaches (arts ++ [new]) x y →
      Reaches arts x y ∨
        ((∃ d ∈ new.derivesFrom, d = y ∨ Reaches (arts ++ [new]) d y) ∧
          (x = new.name ∨ Reaches arts x new.name)) := by
  intro x y h
  induction h with
  | @single a b he =>
    by_cases hx : a = new.name
    · subst hx
      exact Or.inr ⟨⟨b, edge_append_fresh_self hfresh he, Or.inl rfl⟩, Or.inl rfl⟩
    · exact Or.inl (Reaches.single (edge_append_fresh_of_ne hfresh hx he))
  | @head a c b he hr ih =>
    by_cases hx : a = new.name
    · subst hx
      exact Or.inr ⟨⟨c, edge_append_fresh_self hfresh he, Or.inr hr⟩, Or.inl rfl⟩
    · have he' : edge arts a c := edge_append_fresh_of_ne hfresh hx he
      rcases ih with h1 | ⟨hd, hz⟩
      · exact Or.inl (Reaches.head he' h1)
      · refine Or.inr ⟨hd, Or.inr ?_⟩
        rcases hz with rfl | hz
        · exact Reaches.single he'
        · exact Reaches.head he' hz

/-- Acyclicity is preserved when declaring a fresh artifact none of whose
direct dependencies already transitively derives from it. -/
theorem acyclic_append_fresh {arts : List Art} {new : Art}
    (hfresh : new.name ∉ artNames arts)
    (hchk : ∀ d ∈ new.derivesFrom, d ≠ new.name ∧ ¬ Reaches arts d new.name)
    (hacy : Acyclic arts) : Acyclic (arts ++ [new]) := by
  intro x hcyc
  rcases reaches_append_fresh hfresh x x hcyc with h1 | ⟨⟨d, hd, hdy⟩, hxnm⟩
  · exact hacy x h1
  · obtain ⟨hdne, hdnr⟩ := hchk d hd
    rcases hxnm with rfl | hx
    · rcases hdy with rfl | hr
      · exact hdne rfl
      · rcases reaches_append_fresh hfresh d new.name hr with h2 | ⟨-, h3⟩
        · exact hdnr h2
        · rcases h3 with rfl | h3
          · exact hdne rfl
          · exact hdnr h3
    · rcases hdy with rfl | hr
      · exact hdnr hx
      · rcases reaches_append_fresh hfresh d x hr with h2 | ⟨-, h3⟩
        · exact hdnr (h2.trans hx)
        · rcases h3 with rfl | h3
          · exact hdne rfl
          · exact hdnr h3

theorem declare_fails_on_cycle (e : Engine) (name : String)
    (reads derives : List String)
    (producer : List SVal → List SVal → Except String SVal)
    (hfresh : e.artifacts.any (fun a => decide (a.name = name)) = false)
    (hreads : reads.find?
      (fun r => ! e.params.any (fun p => decide (p.name = r))) = none)
    (hcyc : ∃ d ∈ derives, d = name ∨ Reaches e.artifacts d name) :
    declare e name reads derives producer = .error (.CyclicDependency name) := by
  obtain ⟨d, hd, hdr⟩ := hcyc
  have hany : derives.any (fun d => decide (d ∈ reachSet e.artifacts name)) = true :=
    List.any_eq_true.mpr ⟨d, hd, decide_eq_true (mem_reachSet_iff.mpr hdr)⟩
  unfold declare
  rw [hfresh, hreads]
  simp [hany]

theorem declare_ok_inv (e : Engine) (name : String) (reads derives : List String)
    (producer : List SVal → List SVal → Except String SVal) (e' : Engine)
    (h : declare e name reads derives producer = .ok e') :
    e'.artifacts = e.artifacts ++ [⟨name, reads, derives, producer, none, 0⟩] ∧
      name ∉ artNames e.artifacts ∧
      ∀ d ∈ derives, d ≠ name ∧ ¬ Reaches e.artifacts d name := by
  unfold declare at h
  by_cases h1 : e.artifacts.any (fun a => decide (a.name = name)) = true
  · rw [h1] at h; simp at h
  · rw [Bool.not_eq_true] at h1
    rw [h1] at h
    simp only [Bool.false_eq_true, if_false] at h
    cases h2 : reads.find? (fun r => ! e.params.any (fun p => decide (p.name = r))) with
    | some r => rw [h2] at h; simp at h
    | none =>
      rw [h2] at h
      by_cases h3 : derives.any (fun d => decide (d ∈ reachSet e.artifacts name)) = true
      · rw [h3] at h; simp at h
      · rw [Bool.not_eq_true] at h3
        rw [h3] at h
        simp only [Bool.false_eq_true, if_false, Except.ok.injEq] at h
        subst h
        refine ⟨rfl, ?_, ?_⟩
        · intro hmem
          rcases List.mem_map.mp hmem with ⟨a, ha, han⟩
          have hany : e.artifacts.any (fun a => decide (a.name = name)) = true :=
            List.any_eq_true.mpr ⟨a, ha, decide_eq_true han⟩
          rw [h1] at hany
          exact Bool.false_ne_true hany
        · intro d hd
          have hnot : ¬ (d ∈ reachSet e.artifacts name) := by
            intro hmem
            have hany : derives.any
                (fun d => decide (d ∈ reachSet e.artifacts name)) = true :=
              List.any_eq_true.mpr ⟨d, hd, decide_eq_true hmem⟩
            rw [h3] at hany
            exact Bool.false_ne_true hany
          rw [mem_reachSet_iff] at hnot
          push_neg at hnot
          exact hnot

theorem declare_ok_acyclic (e : Engine) (name : String) (reads derives : List String)
    (producer : List SVal → List SVal → Except String SVal) (e' : Engine)
    (h : declare e name reads derives producer = .ok e')
    (hacy : Acyclic e.artifacts) : Acyclic e'.artifacts := by
  obtain ⟨harts, hfresh, hchk⟩ := declare_ok_inv e name reads derives producer e' h
  rw [harts]
  exact acyclic_append_fresh hfresh hchk hacy

/-! ### Recompute scheduler -/

/-- Cached value of an artifact (`none` when uninitialised or invalidated). -/
def cachedOf (arts : List Art) (n : String) : Option SVal :=
  match findArt' arts n with
  | some a => a.cached
  | none => none

/-- Generation counter of an artifact. -/
def genOf (arts : List Art) (n : String) : Nat :=
  match findArt' arts n with
  | some a => a.generation
  | none => 0

/-- Modelled from the spec: invalidation of a list of artifacts — clears the
cached value and increments the generation counter of each named artifact,
invoking no producer. -/
def invalFun (names : List String) (a : Art) : Art :=
  if a.name ∈ names then { a with cached := none, generation := a.generation + 1 }
  else a

theorem invalFun_name (names : List String) (a : Art) :
    (invalFun names a).name = a.name := by
  unfold invalFun; split <;> rfl

def invalidate (e : Engine) (names : List String) : Engine :=
  { e with artifacts := e.artifacts.map (invalFun names) }

/-- Modelled from the spec: `on_update(changed_param_names)` — computes
`affected_by` and invalidates those artifacts, deferring all recomputation
to the next `read`; the Python implementation is not in the snapshot. -/
def on_update (e : Engine) (changed : List String) : Engine :=
  invalidate e (affected_by e.artifacts changed)

/-- Modelled from the spec: `update(mapping)` — applies the sets as one
batch, collecting all changed names before triggering any invalidation. -/
def update (e : Engine) (m : List (String × SVal)) : Except EngineError Engine :=
  (setAll e m).map (fun r => on_update r.1 r.2)

/-- Resolution of a list of parameter names to their current values. -/
def resolveParams (e : Engine) : List String → Except EngineError (List SVal)
  | [] => .ok []
  | p :: ps =>
    match get e p with
    | .error err => .error err
    | .ok v =>
      match resolveParams e ps with
      | .error err => .error err
      | .ok vs => .ok (v :: vs)

/-- Store a freshly computed value in an artifact's cache slot. -/
def cacheFun (n : String) (v : SVal) (a : Art) : Art :=
  if a.name = n then { a with cached := some v } else a

theorem cacheFun_name (n : String) (v : SVal) (a : Art) :
    (cacheFun n v a).name = a.name := by
  unfold cacheFun; split <;> rfl

def cacheValue (e : Engine) (n : String) (v : SVal) : Engine :=
  { e with artifacts := e.artifacts.map (cacheFun n v) }

/-- Fuel bound for the recursive read, amply covering any acyclic dependency
graph arising in practice (one unit per list step or artifact visit). -/
def innerFuel (arts : List Art) : Nat :=
  (arts.map (fun a => a.derivesFrom.length + 2)).sum

/-- Modelled from the spec: the recursive resolution underlying `read` — a
cached artifact returns its cache; otherwise its parameter reads and upstream
artifacts are resolved (the latter through the same recursion), the producer
is invoked (appending the artifact name to the invocation log), and the
result is cached.  A producer failure is wrapped as
`ArtifactComputationError` carrying the artifact name and original cause. -/
def readList (fuel : Nat) (e : Engine) (l : List String) :
    Except EngineError (Engine × List SVal) :=
  match fuel, l with
  | _, [] => .ok (e, [])
  | 0, n :: _ => .error (.ArtifactComputationError n "fuel exhausted")
  | fuel + 1, n :: ns =>
    match findArt e n with
    | none => .error (.UnknownArtifact n)
    | some a =>
      match a.cached with
      | some v =>
        match readList fuel e ns with
        | .error err => .error err
        | .ok (e', vs) => .ok (e', v :: vs)
      | none =>
        match resolveParams e a.reads with
        | .error err => .error err
        | .ok pvals =>
          match readList fuel e a.derivesFrom with
          | .error err => .error err
          | .ok (e1, uvals) =>
            match a.producer pvals uvals with
            | .error cause => .error (.ArtifactComputationError n cause)
            | .ok v =>
              match readList fuel
                  (cacheValue { e1 with log := e1.log ++ [n] } n v) ns with
              | .error err => .error err
              | .ok (e', vs) => .ok (e', v :: vs)

/-- Modelled from the spec: `read(artifact_name) -> value` — returns the
cached value when valid, otherwise recomputes through the producer chain;
the Python implementation is not in the snapshot. -/
def read (e : Engine) (n : String) : Except EngineError (Engine × SVal) :=
  match readList (innerFuel e.artifacts + 1) e [n] with
  | .ok (e', v :: _) => .ok (e', v)
  | .ok (_, []) => .error (.UnknownArtifact n)
  | .error err => .error err

/-! ### Lookup lemmas for name-preserving maps -/

theorem findArt'_map (arts : List Art) (f : Art → Art)
    (hf : ∀ a, (f a).name = a.name) (n : String) :
    findArt' (arts.map f) n = (findArt' arts n).map f := by
  unfold findArt'
  rw [List.find?_map]
  have hp : (fun a => decide (a.name = n)) ∘ f = fun a => decide (a.name = n) := by
    funext a
    simp [Function.comp, hf]
  rw [hp]

theorem artNames_map (arts : List Art) (f : Art → Art)
    (hf : ∀ a, (f a).name = a.name) : artNames (arts.map f) = artNames arts := by
  unfold artNames
  rw [List.map_map]
  exact List.map_congr_left (fun a _ => hf a)

theorem cachedOf_cacheValue (e : Engine) (n m : String) (v : SVal) :
    cachedOf (cacheValue e n v).artifacts m =
      if m = n ∧ (findArt' e.artifacts m).isSome then some v
      else cachedOf e.artifacts m := by
  unfold cachedOf cacheValue
  rw [findArt'_map _ _ (cacheFun_name n v)]
  cases hf : findArt' e.artifacts m with
  | none => simp
  | some a =>
    have ham : a.name = m := by
      have := List.find?_some hf
      simpa using this
    simp only [Option.map_some']
    unfold cacheFun
    by_cases hmn : m = n
    · rw [if_pos (ham.trans hmn)]
      simp [hmn]
    · rw [if_neg (fun h => hmn (ham.symm.trans h))]
      simp [hmn]

theorem log_cacheValue (e : Engine) (n : String) (v : SVal) :
    (cacheValue e n v).log = e.log := rfl

theorem artNames_cacheValue (e : Engine) (n : String) (v : SVal) :
    artNames (cacheValue e n v).artifacts = artNames e.artifacts :=
  artNames_map _ _ (cacheFun_name n v)

theorem cachedOf_eq_some {arts : List Art} {n : String} {v : SVal} :
    cachedOf arts n = some v ↔
      ∃ a, findArt' arts n = some a ∧ a.cached = some v := by
  unfold cachedOf
  cases hf : findArt' arts n with
  | none =>
    simp only []
    constructor
    · intro h; exact absurd h (by simp)
    · rintro ⟨a, ha, -⟩; exact absurd ha (by simp)
  | some a =>
    constructor
    · intro h; exact ⟨a, rfl, h⟩
    · rintro ⟨a', ha', h⟩
      rw [Option.some_inj] at ha'
      rw [ha']; exact h

theorem mem_artNames_of_findArt' {arts : List Art} {n : String} {a : Art}
    (h : findArt' arts n = some a) : n ∈ artNames arts := by
  have hmem := List.mem_of_find?_eq_some h
  have han : a.name = n := by simpa using List.find?_some h
  exact han ▸ List.mem_map.mpr ⟨a, hmem, rfl⟩

theorem findArt'_isSome_of_mem {arts : List Art} {n : String}
    (h : n ∈ artNames arts) : (findArt' arts n).isSome = true := by
  rcases List.mem_map.mp h with ⟨a, ha, rfl⟩
  exact List.find?_isSome.mpr ⟨a, ha, by simp⟩

/-! ### Equation lemmas and invariants of the recursive read -/

theorem readList_nil (fuel : Nat) (e : Engine) :
    readList fuel e [] = .ok (e, []) := by
  cases fuel <;> rfl

theorem readList_zero_cons (e : Engine) (n : String) (ns : List String) :
    readList 0 e (n :: ns) =
      .error (.ArtifactComputationError n "fuel exhausted") := rfl

/-- A successful recursive read preserves artifact names and never clears a
cache slot: every cached value survives (reads only add caches). -/
theorem readList_preserves : ∀ (fuel : Nat) (l : List String) (e e' : Engine)
    (vs : List SVal), readList fuel e l = .ok (e', vs) →
    artNames e'.artifacts = artNames e.artifacts ∧
      ∀ m w, cachedOf e.artifacts m = some w → cachedOf e'.artifacts m = some w := by
  intro fuel
  induction fuel with
  | zero =>
    intro l e e' vs h
    cases l with
    | nil =>
      rw [readList_nil] at h
      simp only [Except.ok.injEq, Prod.mk.injEq] at h
      rw [← h.1]
      exact ⟨rfl, fun m w hw => hw⟩
    | cons n ns => rw [readList_zero_cons] at h; simp at h
  | succ f ih =>
    intro l e e' vs h
    cases l with
    | nil =>
      rw [readList_nil] at h
      simp only [Except.ok.injEq, Prod.mk.injEq] at h
      rw [← h.1]
      exact ⟨rfl, fun m w hw => hw⟩
    | cons n ns =>
      simp only [readList] at h
      cases hfa : findArt e n with
      | none => simp only [hfa] at h; simp at h
      | some a =>
        simp only [hfa] at h
        cases hc : a.cached with
        | some v =>
          simp only [hc] at h
          cases hrl : readList f e ns with
          | error err => simp only [hrl] at h; simp at h
          | ok p =>
            obtain ⟨e1, vs1⟩ := p
            simp only [hrl] at h
            simp only [Except.ok.injEq, Prod.mk.injEq] at h
            rw [← h.1]
            exact ih ns e e1 vs1 hrl
        | none =>
          simp only [hc] at h
          cases hrp : resolveParams e a.reads with
          | error err => simp only [hrp] at h; simp at h
          | ok pvals =>
            simp only [hrp] at h
            cases hrd : readList f e a.derivesFrom with
            | error err => simp only [hrd] at h; simp at h
            | ok q =>
              obtain ⟨e1, uvals⟩ := q
              simp only [hrd] at h
              cases hpr : a.producer pvals uvals with
              | error cause => simp only [hpr] at h; simp at h
              | ok v =>
                simp only [hpr] at h
                cases hrl2 : readList f
                    (cacheValue { e1 with log := e1.log ++ [n] } n v) ns with
                | error err => simp only [hrl2] at h; simp at h
                | ok r =>
                  obtain ⟨e2, vs2⟩ := r
                  simp only [hrl2] at h
                  simp only [Except.ok.injEq, Prod.mk.injEq] at h
                  rw [← h.1]
                  obtain ⟨hn1, hm1⟩ := ih _ _ _ _ hrd
                  obtain ⟨hn2, hm2⟩ := ih _ _ _ _ hrl2
                  constructor
                  · rw [hn2, artNames_cacheValue]
                    exact hn1
                  · intro m w hw
                    refine hm2 m w ?_
                    rw [cachedOf_cacheValue]
                    have hw1 := hm1 m w hw
                    have hmn : ¬ m = n := by
                      intro hmn
                      subst hmn
                      rw [cachedOf_eq_some] at hw
                      rcases hw with ⟨a', ha', hv'⟩
                      rw [show findArt' e.artifacts m = findArt e m from rfl, hfa,
                        Option.some_inj] at ha'
                      rw [← ha'] at hv'
                      simp only [hc] at hv'
                      exact absurd hv' (by simp)
                    rw [if_neg (fun hand => hmn hand.1)]
                    exact hw1

/-- A successful recursive read leaves the artifact at the head of the list
with its returned value in the cache. -/
theorem readList_head_cached : ∀ (fuel : Nat) (n : String) (ns : List String)
    (e e' : Engine) (vs : List SVal), readList fuel e (n :: ns) = .ok (e', vs) →
    ∃ v rest, vs = v :: rest ∧ cachedOf e'.artifacts n = some v := by
  intro fuel n ns e e' vs h
  cases fuel with
  | zero => rw [readList_zero_cons] at h; simp at h
  | succ f =>
    simp only [readList] at h
    cases hfa : findArt e n with
    | none => simp only [hfa] at h; simp at h
    | some a =>
      simp only [hfa] at h
      cases hc : a.cached with
      | some v =>
        simp only [hc] at h
        cases hrl : readList f e ns with
        | error err => simp only [hrl] at h; simp at h
        | ok p =>
          obtain ⟨e1, vs1⟩ := p
          simp only [hrl] at h
          simp only [Except.ok.injEq, Prod.mk.injEq] at h
          refine ⟨v, vs1, h.2.symm, ?_⟩
          rw [← h.1]
          refine (readList_preserves f ns e e1 vs1 hrl).2 n v ?_
          rw [cachedOf_eq_some]
          exact ⟨a, hfa, hc⟩
      | none =>
        simp only [hc] at h
        cases hrp : resolveParams e a.reads with
        | error err => simp only [hrp] at h; simp at h
        | ok pvals =>
          simp only [hrp] at h
          cases hrd : readList f e a.derivesFrom with
          | error err => simp only [hrd] at h; simp at h
          | ok q =>
            obtain ⟨e1, uvals⟩ := q
            simp only [hrd] at h
            cases hpr : a.producer pvals uvals with
            | error cause => simp only [hpr] at h; simp at h
            | ok v =>
              simp only [hpr] at h
              cases hrl2 : readList f
                  (cacheValue { e1 with log := e1.log ++ [n] } n v) ns with
              | error err => simp only [hrl2] at h; simp at h
              | ok r =>
                obtain ⟨e2, vs2⟩ := r
                simp only [hrl2] at h
                simp only [Except.ok.injEq, Prod.mk.injEq] at h
                refine ⟨v, vs2, h.2.symm, ?_⟩
                rw [← h.1]
                refine (readList_preserves f ns _ e2 vs2 hrl2).2 n v ?_
                rw [cachedOf_cacheValue]
                rw [if_pos ?_]
                constructor
                · rfl
                · show (findArt' e1.artifacts n).isSome = true
                  refine findArt'_isSome_of_mem ?_
                  rw [(readList_preserves f _ e e1 uvals hrd).1]
                  exact mem_artNames_of_findArt' hfa

theorem read_ok_cached {e : Engine} {n : String} {e' : Engine} {v : SVal}
    (h : read e n = .ok (e', v)) : cachedOf e'.artifacts n = some v := by
  unfold read at h
  cases hrl : readList (innerFuel e.artifacts + 1) e [n] with
  | error err => simp only [hrl] at h; simp at h
  | ok p =>
    obtain ⟨e1, vs⟩ := p
    simp only [hrl] at h
    cases vs with
    | nil => simp at h
    | cons v1 rest =>
      simp only [Except.ok.injEq, Prod.mk.injEq] at h
      obtain ⟨v2, rest2, hvs, hc⟩ := readList_head_cached _ n [] e e1 _ hrl
      have hv2 : v2 = v1 := by
        have := hvs
        simp only [List.cons.injEq] at this
        exact this.1.symm
      rw [← h.1, ← h.2, ← hv2]
      exact hc

theorem read_cached_eq {e : Engine} {n : String} {a : Art} {v : SVal}
    (ha : findArt' e.artifacts n = some a) (hv : a.cached = some v) :
    read e n = .ok (e, v) := by
  have ha' : findArt e n = some a := ha
  unfold read
  have h1 : readList (innerFuel e.artifacts + 1) e [n] = .ok (e, [v]) := by
    simp only [readList, ha', hv, readList_nil]
  rw [h1]

/-- Reading twice with no intervening update returns the identical cached
value and the identical engine state: the producer is not invoked again. -/
theorem read_idem {e e' : Engine} {n : String} {v : SVal}
    (h : read e n = .ok (e', v)) : read e' n = .ok (e', v) := by
  rcases cachedOf_eq_some.mp (read_ok_cached h) with ⟨a, ha, hav⟩
  exact read_cached_eq ha hav

/-! ### Parameter Store lemmas -/

theorem findParamList_map (ps : List ParamDecl) (f : ParamDecl → ParamDecl)
    (hf : ∀ p, (f p).name = p.name) (n : String) :
    (ps.map f).find? (fun p => decide (p.name = n)) =
      (ps.find? (fun p => decide (p.name = n))).map f := by
  rw [List.find?_map]
  have hp : (fun p => decide (p.name = n)) ∘ f = fun p => decide (p.name = n) := by
    funext p
    simp [Function.comp, hf]
  rw [hp]

theorem set_then_get {e : Engine} {n : String} {p : ParamDecl} {v : SVal}
    (hp : findParam e n = some p) (hv : p.validator v = true) :
    ∃ e1 ch, set e n v = .ok (e1, ch) ∧ get e1 n = .ok v := by
  have hpn : p.name = n := by
    simpa using List.find?_some hp
  unfold set
  simp only [hp, hv, if_true]
  by_cases hveq : v = p.value
  · rw [if_pos hveq]
    refine ⟨e, false, rfl, ?_⟩
    unfold get
    rw [hp, hveq]
  · rw [if_neg hveq]
    refine ⟨_, true, rfl, ?_⟩
    unfold get findParam
    show (match (e.params.map (setFun n v)).find? (fun q => decide (q.name = n)) with
      | some q => Except.ok q.value
      | none => Except.error (EngineError.UnknownParameter n)) = Except.ok v
    rw [findParamList_map _ _ (setFun_name n v)]
    have hp' : e.params.find? (fun q => decide (q.name = n)) = some p := hp
    rw [hp']
    simp only [Option.map_some']
    unfold setFun
    rw [if_pos hpn]

theorem set_rejected {e : Engine} {n : String} {p : ParamDecl} {v : SVal}
    (hp : findParam e n = some p) (hv : p.validator v = false) :
    set e n v = .error (.InvalidValue n) := by
  unfold set
  simp only [hp, hv]
  simp

theorem set_current {e : Engine} {n : String} {p : ParamDecl}
    (hp : findParam e n = some p) :
    (∃ err, set e n p.value = .error err) ∨ set e n p.value = .ok (e, false) := by
  unfold set
  simp only [hp]
  by_cases hval : p.validator p.value = true
  · simp only [hval, if_true, if_pos rfl]
    exact Or.inr trivial
  · rw [Bool.not_eq_true] at hval
    simp only [hval]
    exact Or.inl ⟨.InvalidValue n, by simp⟩

theorem invalidate_nil (e : Engine) : invalidate e [] = e := by
  unfold invalidate
  have h1 : invalFun [] = fun a => a := by
    funext a
    unfold invalFun
    simp
  rw [h1, List.map_id']

theorem affected_by_nil (arts : List Art) : affected_by arts [] = [] := by
  unfold affected_by
  rw [List.filter_eq_nil_iff]
  intro x hx
  simp only [decide_eq_true_eq]
  intro hmem
  rcases affectedSet_sound hmem with h | ⟨y, -, h⟩ <;>
    · obtain ⟨p, -, hp⟩ := h
      simp at hp

theorem on_update_nil (e : Engine) : on_update e [] = e := by
  unfold on_update
  rw [affected_by_nil, invalidate_nil]

theorem update_current {e : Engine} {n : String} {p : ParamDecl}
    (hp : findParam e n = some p) (hval : p.validator p.value = true) :
    update e [(n, p.value)] = .ok e := by
  have hset : set e n p.value = .ok (e, false) := by
    unfold set
    simp only [hp, hval, if_true, if_pos rfl]
  unfold update setAll
  simp only [hset, setAll]
  have hif : (if false = true then [n] else []) = ([] : List String) := by simp
  simp only [Except.map]
  rw [hif, on_update_nil]

/-! ### Batch update frame lemmas -/

theorem set_state {e : Engine} {n : String} {v : SVal} {e1 : Engine} {b : Bool}
    (h : set e n v = .ok (e1, b)) :
    e1.artifacts = e.artifacts ∧ e1.log = e.log := by
  unfold set at h
  cases hp : findParam e n with
  | none => rw [hp] at h; simp at h
  | some p =>
    rw [hp] at h
    by_cases hval : p.validator v = true
    · simp only [hval, if_true] at h
      by_cases hveq : v = p.value
      · rw [if_pos hveq] at h
        simp only [Except.ok.injEq, Prod.mk.injEq] at h
        rw [← h.1]
        exact ⟨rfl, rfl⟩
      · rw [if_neg hveq] at h
        simp only [Except.ok.injEq, Prod.mk.injEq] at h
        rw [← h.1]
        exact ⟨rfl, rfl⟩
    · rw [Bool.not_eq_true] at hval
      simp only [hval] at h
      simp at h

theorem setAll_state : ∀ (m : List (String × SVal)) (e e' : Engine)
    (ch : List String), setAll e m = .ok (e', ch) →
    e'.artifacts = e.artifacts ∧ e'.log = e.log ∧
      ∀ x ∈ ch, x ∈ m.map Prod.fst := by
  intro m
  induction m with
  | nil =>
    intro e e' ch h
    simp only [setAll, Except.ok.injEq, Prod.mk.injEq] at h
    rw [← h.1]
    exact ⟨rfl, rfl, by rw [← h.2]; intro x hx; simp at hx⟩
  | cons q rest ih =>
    intro e e' ch h
    obtain ⟨n, v⟩ := q
    simp only [setAll] at h
    cases hset : set e n v with
    | error err => simp only [hset] at h; simp at h
    | ok r =>
      obtain ⟨e1, changed⟩ := r
      simp only [hset] at h
      cases hsa : setAll e1 rest with
      | error err => simp only [hsa] at h; simp at h
      | ok r2 =>
        obtain ⟨e2, ns⟩ := r2
        simp only [hsa] at h
        simp only [Except.ok.injEq, Prod.mk.injEq] at h
        obtain ⟨ha1, hl1⟩ := set_state hset
        obtain ⟨ha2, hl2, hsub⟩ := ih e1 e2 ns hsa
        rw [← h.1]
        refine ⟨ha2.trans ha1, hl2.trans hl1, ?_⟩
        intro x hx
        rw [← h.2] at hx
        by_cases hch : changed = true
        · rw [hch] at hx
          rw [if_pos rfl] at hx
          rcases List.mem_cons.mp hx with rfl | hx
          · simp
          · simp only [List.map_cons, List.mem_cons]
            exact Or.inr (hsub x hx)
        · rw [Bool.not_eq_true] at hch
          rw [hch] at hx
          rw [if_neg (by simp)] at hx
          simp only [List.map_cons, List.mem_cons]
          exact Or.inr (hsub x hx)

/-! ### Shape of invalidation -/

theorem mem_affected_by_iff2 {arts : List Art} {changed : List String}
    {n : String} : n ∈ affected_by arts changed ↔
      n ∈ artNames arts ∧ n ∈ affectedSet arts changed := by
  unfold affected_by
  rw [List.mem_filter]
  simp

theorem findArt'_invalidate (e : Engine) (names : List String) (n : String) :
    findArt' (invalidate e names).artifacts n =
      (findArt' e.artifacts n).map (invalFun names) := by
  unfold invalidate
  exact findArt'_map _ _ (invalFun_name names) n

theorem log_on_update (e : Engine) (ch : List String) :
    (on_update e ch).log = e.log := rfl

theorem params_on_update (e : Engine) (ch : List String) :
    (on_update e ch).params = e.params := rfl

theorem cachedOf_on_update (e : Engine) (ch : List String) (n : String) :
    cachedOf (on_update e ch).artifacts n =
      if n ∈ affectedSet e.artifacts ch then none
      else cachedOf e.artifacts n := by
  unfold on_update cachedOf
  rw [findArt'_invalidate]
  cases hf : findArt' e.artifacts n with
  | none =>
    have hns : n ∉ affectedSet e.artifacts ch := by
      intro hmem
      have h1 := affectedSet_subset_artNames e.artifacts ch hmem
      have h2 := findArt'_isSome_of_mem (List.mem_toFinset.mp h1)
      rw [hf] at h2
      simp at h2
    rw [if_neg hns]
    simp
  | some a =>
    have han : a.name = n := by simpa using List.find?_some hf
    have hmemN : n ∈ artNames e.artifacts := mem_artNames_of_findArt' hf
    simp only [Option.map_some']
    unfold invalFun
    by_cases hm : n ∈ affectedSet e.artifacts ch
    · rw [if_pos (show a.name ∈ affected_by e.artifacts ch from by
        rw [han]; exact mem_affected_by_iff2.mpr ⟨hmemN, hm⟩)]
      rw [if_pos hm]
    · rw [if_neg (show ¬ a.name ∈ affected_by e.artifacts ch from fun hcon =>
        hm (mem_affected_by_iff2.mp (han ▸ hcon)).2)]
      rw [if_neg hm]

theorem genOf_on_update (e : Engine) (ch : List String) (n : String) :
    genOf (on_update e ch).artifacts n =
      if n ∈ affectedSet e.artifacts ch then genOf e.artifacts n + 1
      else genOf e.artifacts n := by
  unfold on_update genOf
  rw [findArt'_invalidate]
  cases hf : findArt' e.artifacts n with
  | none =>
    have hns : n ∉ affectedSet e.artifacts ch := by
      intro hmem
      have h1 := affectedSet_subset_artNames e.artifacts ch hmem
      have h2 := findArt'_isSome_of_mem (List.mem_toFinset.mp h1)
      rw [hf] at h2
      simp at h2
    rw [if_neg hns]
    simp
  | some a =>
    have han : a.name = n := by simpa using List.find?_some hf
    have hmemN : n ∈ artNames e.artifacts := mem_artNames_of_findArt' hf
    simp only [Option.map_some']
    unfold invalFun
    by_cases hm : n ∈ affectedSet e.artifacts ch
    · rw [if_pos (show a.name ∈ affected_by e.artifacts ch from by
        rw [han]; exact mem_affected_by_iff2.mpr ⟨hmemN, hm⟩)]
      rw [if_pos hm]
    · rw [if_neg (show ¬ a.name ∈ affected_by e.artifacts ch from fun hcon =>
        hm (mem_affected_by_iff2.mp (han ▸ hcon)).2)]
      rw [if_neg hm]

/-- Frame property of a batch update: an artifact none of whose transitive
parameter dependencies is touched keeps its exact record (cached value and
generation), and the next read returns the cached value with no state
change. -/
theorem update_frame {e : Engine} {m : List (String × SVal)} {e' : Engine}
    {A : String} {a : Art} {w : SVal}
    (ha : findArt' e.artifacts A = some a) (hw : a.cached = some w)
    (hdisj : ∀ q ∈ m, Prod.fst q ∉ closureParams e.artifacts A)
    (hu : update e m = .ok e') :
    findArt' e'.artifacts A = some a ∧ read e' A = .ok (e', w) := by
  unfold update at hu
  cases hsa : setAll e m with
  | error err => simp only [hsa] at hu; simp [Except.map] at hu
  | ok r =>
    obtain ⟨e1, ch⟩ := r
    simp only [hsa] at hu
    simp only [Except.map, Except.ok.injEq] at hu
    obtain ⟨ha1, hl1, hsub⟩ := setAll_state m e e1 ch hsa
    have hnot : A ∉ affectedSet e1.artifacts ch := by
      rw [ha1]
      apply not_affected_of_disjoint
      intro p hp
      rcases List.mem_map.mp (hsub p hp) with ⟨q, hq, rfl⟩
      exact hdisj q hq
    have hanA : a.name = A := by simpa using List.find?_some ha
    rw [ha1] at hnot
    have hfa' : findArt' e'.artifacts A = some a := by
      rw [← hu]
      show findArt' (on_update e1 ch).artifacts A = some a
      unfold on_update
      rw [findArt'_invalidate, ha1, ha]
      simp only [Option.map_some']
      unfold invalFun
      rw [if_neg (show ¬ a.name ∈ affected_by e.artifacts ch from fun hcon =>
        hnot (mem_affected_by_iff2.mp (hanA ▸ hcon)).2)]
    exact ⟨hfa', read_cached_eq hfa' hw⟩

/-- A producer failure during `read` surfaces as `ArtifactComputationError`
carrying the artifact name and the original cause; no state is produced, so
the artifact stays invalid and the next read retries the producer. -/
theorem read_producer_error {e : Engine} {n : String} {a : Art}
    {pvals uvals : List SVal} {e1 : Engine} {cause : String}
    (ha : findArt' e.artifacts n = some a) (hc : a.cached = none)
    (hrp : resolveParams e a.reads = .ok pvals)
    (hrd : readList (innerFuel e.artifacts) e a.derivesFrom = .ok (e1, uvals))
    (hpr : a.producer pvals uvals = .error cause) :
    read e n = .error (.ArtifactComputationError n cause) := by
  have ha' : findArt e n = some a := ha
  unfold read
  have h1 : readList (innerFuel e.artifacts + 1) e [n] =
      .error (.ArtifactComputationError n cause) := by
    simp only [readList, ha', hc, hrp, hrd, hpr]
  rw [h1]

/-! ### Declaration order -/

/-- Ordering `Before l x y`: an occurrence of `x` precedes an occurrence of `y` in
`l`. -/
def Before (l : List String) (x y : String) : Prop :=
  ∃ l1 l2 l3, l = l1 ++ x :: (l2 ++ y :: l3)

theorem Before.filter {l : List String} {x y : String} {q : String → Bool}
    (h : Before l x y) (hx : q x = true) (hy : q y = true) :
    Before (l.filter q) x y := by
  obtain ⟨l1, l2, l3, rfl⟩ := h
  refine ⟨l1.filter q, l2.filter q, l3.filter q, ?_⟩
  simp [List.filter_append, List.filter_cons, hx, hy]

/-- Executable check that every artifact derives only from artifacts declared
before it (`seen` accumulates the names already declared). -/
def declTopoB : List Art → List String → Bool
  | [], _ => true
  | a :: rest, seen =>
    a.derivesFrom.all (fun d => decide (d ∈ seen)) && declTopoB rest (a.name :: seen)

theorem declTopoB_edge : ∀ (u : List Art) (a : Art) (w : List Art)
    (seen : List String), declTopoB (u ++ a :: w) seen = true →
    ∀ d ∈ a.derivesFrom, d ∈ seen ∨ d ∈ artNames u := by
  intro u
  induction u with
  | nil =>
    intro a w seen h d hd
    simp only [List.nil_append, declTopoB, Bool.and_eq_true] at h
    exact Or.inl (of_decide_eq_true (List.all_eq_true.mp h.1 d hd))
  | cons b u' ih =>
    intro a w seen h d hd
    simp only [List.cons_append, declTopoB, Bool.and_eq_true] at h
    rcases ih a w (b.name :: seen) h.2 d hd with h1 | h1
    · rcases List.mem_cons.mp h1 with rfl | h1
      · right
        unfold artNames
        simp
      · exact Or.inl h1
    · right
      unfold artNames
      simp only [List.map_cons, List.mem_cons]
      exact Or.inr h1

/-- Under the no-forward-reference discipline, every dependency edge points
to an earlier-declared artifact. -/
theorem edge_before_of_declTopo {arts : List Art}
    (ht : declTopoB arts [] = true) {x y : String} (he : edge arts x y) :
    Before (artNames arts) y x := by
  unfold edge derivesOf at he
  cases hf : findArt' arts x with
  | none => rw [hf] at he; simp at he
  | some a =>
    rw [hf] at he
    have hmem := List.mem_of_find?_eq_some hf
    have han : a.name = x := by simpa using List.find?_some hf
    obtain ⟨u, w, rfl⟩ := List.append_of_mem hmem
    rcases declTopoB_edge u a w [] ht y he with h1 | h1
    · simp at h1
    · obtain ⟨s1, s2, hs⟩ := List.append_of_mem h1
      refine ⟨s1, s2, artNames w, ?_⟩
      unfold artNames at hs ⊢
      simp only [List.map_append, List.map_cons]
      rw [hs, han]
      simp [List.append_assoc]

theorem before_affected_by {arts : List Art} {ch : List String} {x y : String}
    (hb : Before (artNames arts) x y) (hx : x ∈ affected_by arts ch)
    (hy : y ∈ affected_by arts ch) : Before (affected_by arts ch) x y := by
  unfold affected_by at hx hy ⊢
  exact Before.filter hb (List.mem_filter.mp hx).2 (List.mem_filter.mp hy).2

theorem update_log {e : Engine} {m : List (String × SVal)} {e' : Engine}
    (hu : update e m = .ok e') : e'.log = e.log := by
  unfold update at hu
  cases hsa : setAll e m with
  | error err => simp only [hsa] at hu; simp [Except.map] at hu
  | ok r =>
    simp only [hsa, Except.map, Except.ok.injEq] at hu
    rw [← hu, log_on_update]
    exact (setAll_state m e r.1 r.2 (by rw [hsa])).2.1

/-! ### Concrete scenario configurations -/

/-- List projection used by scenario producers to splice upstream values. -/
def SVal.toList : SVal → List Int
  | .vlist xs => xs
  | .vint n => [n]
  | _ => []

/-- A producer that ignores its inputs. -/
def trivialProducer : List SVal → List SVal → Except String SVal :=
  fun _ _ => .ok SVal.vnone

/-- A producer that always raises. -/
def failProducer : List SVal → List SVal → Except String SVal :=
  fun _ _ => .error "boom"

/-- Scenario producer for `eigenstates`: records the parameter values it was
invoked with. -/
def eigProducer : List SVal → List SVal → Except String SVal :=
  fun ps _ => .ok (SVal.vlist (ps.map SVal.toInt))

/-- Scenario producer for `wavefunction`: records its parameter values
followed by the upstream `eigenstates` value. -/
def wfProducer : List SVal → List SVal → Except String SVal :=
  fun ps us => .ok (SVal.vlist (ps.map SVal.toInt ++ (us.map SVal.toList).flatten))

def alwaysTrue : SVal → Bool := fun _ => true

/-- Validator for the band-selection parameters: `None` or a numeric range. -/
def rangeValidator : SVal → Bool := fun v =>
  match v with
  | .vnone => true
  | .vrange _ _ => true
  | _ => false

/-- Modelled from the spec: the `selected_bands` producer — receives the
current `Erange` and `bands_range` values and applies the documented
precedence: `Erange` wins whenever it is non-null, and the explicit band
indices `[lo..hi]` are returned only when `Erange` is `None`. -/
def selectedBandsProducer : List SVal → List SVal → Except String SVal :=
  fun ps _ =>
    match ps with
    | [erange, brange] =>
      match erange with
      | .vnone =>
        match brange with
        | .vrange lo hi => .ok (.vlist (rangeInts lo hi))
        | _ => .ok .vnone
      | .vrange lo hi => .ok (.vrange lo hi)
      | _ => .error "invalid Erange"
    | _ => .error "wrong arity"

/-- The `eigenstates`/`wavefunction` configuration of the spec's scenario:
`eigenstates` reads `{k, spin}`; `wavefunction` derives from `eigenstates`
and reads `{band_index}`. -/
def c3E0 : Engine :=
  { params := [⟨"k", .vint 0, .vint 0, alwaysTrue, "k point"⟩,
               ⟨"spin", .vint 0, .vint 0, alwaysTrue, "spin component"⟩,
               ⟨"band_index", .vint 1, .vint 1, alwaysTrue, "band index"⟩],
    artifacts := [⟨"eigenstates", ["k", "spin"], [], eigProducer, none, 0⟩,
                  ⟨"wavefunction", ["band_index"], ["eigenstates"], wfProducer,
                    none, 0⟩],
    log := [] }

/-- The `Erange`/`bands_range` configuration of the spec's scenario. -/
def c6E0 : Engine :=
  { params := [⟨"Erange", .vrange (-10) 10, .vrange (-10) 10, rangeValidator,
                 "energy range"⟩,
               ⟨"bands_range", .vnone, .vnone, rangeValidator, "band range"⟩],
    artifacts := [⟨"selected_bands", ["Erange", "bands_range"], [],
                   selectedBandsProducer, none, 0⟩],
    log := [] }

/-- A forward-reference configuration: `A` (declared first) derives from `C`
(declared last); `B` is independent of both. -/
def c1CexArts : List Art :=
  [⟨"A", ["p"], ["C"], trivialProducer, none, 0⟩,
   ⟨"B", ["p"], [], trivialProducer, none, 0⟩,
   ⟨"C", ["p"], [], trivialProducer, none, 0⟩]

/-- An artifact with a cached value, for the frame-property witness. -/
def c2ArtA : Art := ⟨"A", ["p"], [], eigProducer, some (SVal.vlist [0]), 0⟩

def c2WitE : Engine :=
  { params := [⟨"p", .vint 0, .vint 0, alwaysTrue, ""⟩,
               ⟨"q", .vint 0, .vint 0, alwaysTrue, ""⟩],
    artifacts := [c2ArtA],
    log := [] }

def c2WitE1 : Engine :=
  (update c2WitE [("q", SVal.vint 5)]).toOption.getD c2WitE

/-- Same configuration but with an uninitialised artifact. -/
def c2CexE : Engine :=
  { params := [⟨"p", .vint 0, .vint 0, alwaysTrue, ""⟩,
               ⟨"q", .vint 0, .vint 0, alwaysTrue, ""⟩],
    artifacts := [⟨"A", ["p"], [], eigProducer, none, 0⟩],
    log := [] }

/-- A graph in which `A` forward-references the undeclared artifact `B`. -/
def c5E : Engine :=
  { params := [],
    artifacts := [⟨"A", [], ["B"], trivialProducer, none, 0⟩],
    log := [] }

def c5E2 : Engine :=
  (declare c5E "C" [] [] trivialProducer).toOption.getD c5E

/-- An engine whose single artifact's producer always raises. -/
def c8E : Engine :=
  { params := [],
    artifacts := [⟨"bad", [], [], failProducer, none, 0⟩],
    log := [] }

def c4R : Engine × SVal :=
  (read c3E0 "eigenstates").toOption.getD (c3E0, SVal.vnone)

def c4E1 : Engine :=
  (update c3E0 [("k", SVal.vint 1)]).toOption.getD c3E0

/-- Acyclicity for graphs whose dependency targets are all undeclared: every
edge ends in a sink, so no cycle can form. -/
theorem acyclic_of_dangling {arts : List Art}
    (h : ∀ a ∈ arts, ∀ d ∈ a.derivesFrom, findArt' arts d = none) :
    Acyclic arts := by
  intro x hx
  cases hx with
  | single he =>
    unfold edge derivesOf at he
    cases hf : findArt' arts x with
    | none => rw [hf] at he; simp at he
    | some a =>
      rw [hf] at he
      have hcon := h a (List.mem_of_find?_eq_some hf) x he
      rw [hf] at hcon
      simp at hcon
  | head he hr =>
    unfold edge derivesOf at he
    cases hf : findArt' arts x with
    | none => rw [hf] at he; simp at he
    | some a =>
      rw [hf] at he
      have hz := h a (List.mem_of_find?_eq_some hf) _ he
      cases hr with
      | single he2 =>
        unfold edge derivesOf at he2
        rw [hz] at he2
        simp at he2
      | head he2 hr2 =>
        unfold edge derivesOf at he2
        rw [hz] at he2
        simp at he2

theorem c5E_acyclic : Acyclic c5E.artifacts := by
  apply acyclic_of_dangling
  intro a ha d hd
  have ha' : a = ⟨"A", [], ["B"], trivialProducer, none, 0⟩ :=
    List.mem_singleton.mp ha
  subst ha'
  have hd' : d = "B" := List.mem_singleton.mp hd
  subst hd'
  rfl

/-! ### The claims -/

/-- C1 (amended): `affected_by` returns exactly the artifacts whose declared
reads intersect the changed names or that transitively derive from such an
artifact, listed in declaration order; when every artifact derives only from
previously declared artifacts, that sequence is a topological order
(producers before consumers), and any two returned artifacts appear in
declaration order. -/
theorem c1_affected_by (arts : List Art) (changed : List String)
    (ht : declTopoB arts [] = true) :
    (∀ x, x ∈ affected_by arts changed ↔
        x ∈ artNames arts ∧ AffectedSpec arts changed x) ∧
    (∀ x y, Before (artNames arts) x y → x ∈ affected_by arts changed →
        y ∈ affected_by arts changed → Before (affected_by arts changed) x y) ∧
    (∀ x y, edge arts x y → x ∈ affected_by arts changed →
        y ∈ affected_by arts changed → Before (affected_by arts changed) y x) := by
  refine ⟨fun x => mem_affected_by_iff, ?_, ?_⟩
  · intro x y hb hx hy
    exact before_affected_by hb hx hy
  · intro x y he hx hy
    exact before_affected_by (edge_before_of_declTopo ht he) hy hx

theorem c1_affected_by_witness :
    Before (affected_by c3E0.artifacts ["k"]) "eigenstates" "wavefunction" :=
  (c1_affected_by c3E0.artifacts ["k"] (by decide)).2.2 "wavefunction"
    "eigenstates" (by decide) (by decide) (by decide)

/-- C1 counterexample: with a forward reference (`A` declared before the
artifact `C` it derives from) the returned sequence is not topological —
the consumer `A` precedes its producer `C` — so the claim as stated fails. -/
theorem c1_affected_by_cex :
    edge c1CexArts "A" "C" ∧
    affected_by c1CexArts ["p"] = ["A", "B", "C"] ∧
    Before (affected_by c1CexArts ["p"]) "A" "C" := by
  refine ⟨by decide, by decide, ⟨[], ["B"], [], by decide⟩⟩

/-- C2 (amended): for an artifact `A` that holds a cached value, an update
batch whose parameters all lie outside the transitive closure of `A`'s
dependencies leaves `A`'s record (cached value and generation) unchanged,
and the next read of `A` returns the cached value without touching the
engine state. -/
theorem c2_frame {e : Engine} {m : List (String × SVal)} {e' : Engine}
    {A : String} {a : Art} {w : SVal}
    (ha : findArt' e.artifacts A = some a) (hw : a.cached = some w)
    (hdisj : ∀ q ∈ m, Prod.fst q ∉ closureParams e.artifacts A)
    (hu : update e m = .ok e') :
    findArt' e'.artifacts A = some a ∧ read e' A = .ok (e', w) :=
  update_frame ha hw hdisj hu

theorem c2_frame_witness :
    read c2WitE1 "A" = .ok (c2WitE1, SVal.vlist [0]) := by
  have ha : findArt' c2WitE.artifacts "A" = some c2ArtA := rfl
  have hw : c2ArtA.cached = some (SVal.vlist [0]) := rfl
  have hd : ∀ q ∈ [(("q" : String), SVal.vint 5)],
      Prod.fst q ∉ closureParams c2WitE.artifacts "A" := by decide
  have hu : update c2WitE [("q", SVal.vint 5)] = .ok c2WitE1 := by rfl
  exact (c2_frame ha hw hd hu).2

/-- C2 counterexample: for an uninitialised artifact the claim as stated
fails — the update leaves the (empty) cache untouched, but the next read
invokes the producer and the cached value changes from `none` to a value. -/
theorem c2_frame_cex :
    cachedOf c2CexE.artifacts "A" = none ∧
    ((update c2CexE [("q", SVal.vint 5)]).bind (fun e' =>
        (read e' "A").map (fun r =>
          (cachedOf e'.artifacts "A", cachedOf r.1.artifacts "A"))))
      = .ok (none, some (SVal.vlist [0])) :=
  ⟨rfl, by rfl⟩

/-- C3: in the `eigenstates`/`wavefunction` configuration, updating
`band_index` alone invalidates `wavefunction` (cache cleared, generation
bumped) but leaves `eigenstates` cached; updating `k` invalidates both; and
reading afterwards runs the `eigenstates` producer before the
`wavefunction` producer, as the invocation log shows. -/
theorem c3_scenario :
    ((read c3E0 "wavefunction").bind (fun r1 =>
      (update r1.1 [("band_index", SVal.vint 2)]).bind (fun e2 =>
        (update e2 [("k", SVal.vint 1)]).bind (fun e3 =>
          (read e3 "wavefunction").bind (fun r4 =>
            (read r4.1 "eigenstates").map (fun r5 =>
              (cachedOf e2.artifacts "eigenstates",
               genOf e2.artifacts "eigenstates",
               cachedOf e2.artifacts "wavefunction",
               genOf e2.artifacts "wavefunction",
               cachedOf e3.artifacts "eigenstates",
               genOf e3.artifacts "eigenstates",
               genOf e3.artifacts "wavefunction",
               r5.1.log)))))))
    = Except.ok (some (SVal.vlist [0, 0]), 0, none, 1, none, 1, 2,
        ["eigenstates", "wavefunction", "eigenstates", "wavefunction"]) := by
  rfl

/-- C4: `update`/`on_update` never invoke a producer (the invocation log is
unchanged, and invalidation only clears caches and bumps generations of the
affected artifacts), and a second `read` with no intervening update returns
the identical cached value and engine state, so the producer runs at most
once between updates. -/
theorem c4_lazy_cached :
    (∀ (e : Engine) (m : List (String × SVal)) (e' : Engine),
        update e m = .ok e' → e'.log = e.log) ∧
    (∀ (e : Engine) (ch : List String),
        (on_update e ch).log = e.log ∧
        ∀ n, cachedOf (on_update e ch).artifacts n =
            (if n ∈ affectedSet e.artifacts ch then none
             else cachedOf e.artifacts n) ∧
          genOf (on_update e ch).artifacts n =
            (if n ∈ affectedSet e.artifacts ch then genOf e.artifacts n + 1
             else genOf e.artifacts n)) ∧
    (∀ (e e' : Engine) (n : String) (v : SVal),
        read e n = .ok (e', v) → read e' n = .ok (e', v)) :=
  ⟨fun _ _ _ hu => update_log hu,
   fun e ch => ⟨log_on_update e ch,
     fun n => ⟨cachedOf_on_update e ch n, genOf_on_update e ch n⟩⟩,
   fun _ _ _ _ h => read_idem h⟩

theorem c4_lazy_cached_witness :
    c4E1.log = c3E0.log ∧ read c4R.1 "eigenstates" = .ok (c4R.1, c4R.2) := by
  constructor
  · exact c4_lazy_cached.1 c3E0 [("k", SVal.vint 1)] c4E1 (by rfl)
  · exact c4_lazy_cached.2.2 c3E0 c4R.1 "eigenstates" c4R.2 (by rfl)

/-- C5: a `declare` whose new edges would create a cycle (directly or
through artifacts that already transitively derive from the declared name)
fails with `CyclicDependency` — returning no new state, so the graph is
unmutated — while a successful `declare` preserves acyclicity. -/
theorem c5_declare :
    (∀ (e : Engine) (name : String) (reads derives : List String)
        (producer : List SVal → List SVal → Except String SVal),
        e.artifacts.any (fun a => decide (a.name = name)) = false →
        reads.find?
          (fun r => ! e.params.any (fun p => decide (p.name = r))) = none →
        (∃ d ∈ derives, d = name ∨ Reaches e.artifacts d name) →
        declare e name reads derives producer =
          .error (.CyclicDependency name)) ∧
    (∀ (e : Engine) (name : String) (reads derives : List String)
        (producer : List SVal → List SVal → Except String SVal) (e' : Engine),
        declare e name reads derives producer = .ok e' →
        Acyclic e.artifacts → Acyclic e'.artifacts) :=
  ⟨fun e name reads derives producer h1 h2 h3 =>
      declare_fails_on_cycle e name reads derives producer h1 h2 h3,
   fun e name reads derives producer e' h hacy =>
      declare_ok_acyclic e name reads derives producer e' h hacy⟩

theorem c5_declare_witness :
    declare c5E "B" [] ["A"] trivialProducer =
      .error (.CyclicDependency "B") ∧ Acyclic c5E2.artifacts := by
  constructor
  · refine c5_declare.1 c5E "B" [] ["A"] trivialProducer (by decide) rfl ?_
    refine ⟨"A", by decide, Or.inr (Reaches.single ?_)⟩
    decide
  · exact c5_declare.2 c5E "C" [] [] trivialProducer c5E2 (by rfl) c5E_acyclic

/-- C6: with `Erange = [-10,10]` and `bands_range = None`, setting
`bands_range = [6,15]` leaves `Erange` unchanged; the `selected_bands`
producer receives both current values and applies the documented precedence,
returning a selection determined by `Erange`; the indices `[6..15]` are
returned only after `Erange` is set to `None`. -/
theorem c6_scenario :
    ((update c6E0 [("bands_range", SVal.vrange 6 15)]).bind (fun e1 =>
      (get e1 "Erange").bind (fun v1 =>
        (read e1 "selected_bands").bind (fun r2 =>
          (update r2.1 [("Erange", SVal.vnone)]).bind (fun e3 =>
            (read e3 "selected_bands").map (fun r4 =>
              (v1, r2.2, r4.2)))))))
    = Except.ok (SVal.vrange (-10) 10, SVal.vrange (-10) 10,
        SVal.vlist [6, 7, 8, 9, 10, 11, 12, 13, 14, 15]) := by
  rfl

/-- C7: `set` of a value the parameter's validator rejects fails with
`InvalidValue`; no new state is produced, so the parameter and the store are
exactly as before the call. -/
theorem c7_invalid_value {e : Engine} {n : String} {p : ParamDecl} {v : SVal}
    (hp : findParam e n = some p) (hv : p.validator v = false) :
    set e n v = .error (.InvalidValue n) :=
  set_rejected hp hv

theorem c7_invalid_value_witness :
    set c6E0 "Erange" (SVal.vint 3) = .error (.InvalidValue "Erange") :=
  c7_invalid_value (by rfl) (by rfl)

/-- C8: when an artifact's producer raises during `read`, the read fails
with `ArtifactComputationError` carrying the artifact name and the original
cause; no state is produced, so the artifact remains invalid and a
subsequent read retries the producer. -/
theorem c8_producer_error {e : Engine} {n : String} {a : Art}
    {pvals uvals : List SVal} {e1 : Engine} {cause : String}
    (ha : findArt' e.artifacts n = some a) (hc : a.cached = none)
    (hrp : resolveParams e a.reads = .ok pvals)
    (hrd : readList (innerFuel e.artifacts) e a.derivesFrom = .ok (e1, uvals))
    (hpr : a.producer pvals uvals = .error cause) :
    read e n = .error (.ArtifactComputationError n cause) :=
  read_producer_error ha hc hrp hrd hpr

theorem c8_producer_error_witness :
    read c8E "bad" = .error (.ArtifactComputationError "bad" "boom") := by
  have ha : findArt' c8E.artifacts "bad" =
      some ⟨"bad", [], [], failProducer, none, 0⟩ := rfl
  exact c8_producer_error ha rfl rfl rfl rfl

/-- C9: for every registered parameter and every value its validator
accepts, `set` followed by `get` returns exactly the value that was set. -/
theorem c9_set_get {e : Engine} {n : String} {p : ParamDecl} {v : SVal}
    (hp : findParam e n = some p) (hv : p.validator v = true) :
    (set e n v).bind (fun r => get r.1 n) = .ok v := by
  obtain ⟨e1, ch, hs, hg⟩ := set_then_get hp hv
  rw [hs]
  simpa [Except.bind] using hg

theorem c9_set_get_witness :
    (set c6E0 "bands_range" (SVal.vrange 1 2)).bind (fun r => get r.1 "bands_range")
      = .ok (SVal.vrange 1 2) :=
  c9_set_get (by rfl) (by rfl)

/-- C10: re-setting a parameter to its current value never records it as
changed (when the validator accepts, `set` is a no-op returning `false`,
and the whole `update` batch returns the engine unchanged — no artifact's
cached value or generation is modified); when the validator rejects the
stored value the call errors, again modifying nothing. -/
theorem c10_idempotent {e : Engine} {n : String} {p : ParamDecl}
    (hp : findParam e n = some p) :
    ((∃ err, set e n p.value = .error err) ∨ set e n p.value = .ok (e, false)) ∧
    (p.validator p.value = true → update e [(n, p.value)] = .ok e) :=
  ⟨set_current hp, fun hv => update_current hp hv⟩

theorem c10_idempotent_witness :
    ((∃ err, set c6E0 "Erange" (SVal.vrange (-10) 10) = .error err) ∨
      set c6E0 "Erange" (SVal.vrange (-10) 10) = .ok (c6E0, false)) ∧
    update c6E0 [("Erange", SVal.vrange (-10) 10)] = .ok c6E0 := by
  have h := c10_idempotent (show findParam c6E0 "Erange" = some _ from rfl)
  exact ⟨h.1, h.2 rfl⟩

end Reactive
